import Mathlib

/-!
Verification development for the finance-data repository.

The development shallowly embeds the parsing and reshaping logic of
`sec.py`, `tipranks.py` and `yahoo.py` over `List Char` (Python `str`),
`ℚ` (Python numbers, treated as exact rationals) and `Option` (Python
`None` / absent values).  Python's string primitives (`str.find`, slicing
with negative indices, `str.split`, `str.replace`, `str.strip`,
`str.lower`, `str.title`) are modelled faithfully, including the `-1`
result of a failed `find` and the clamping rules of slice bounds.  The
specific regular expressions used by the source are embedded as
deterministic scanners that reproduce `re.findall` semantics (leftmost,
non-overlapping matches, greedy character classes, the lazy gap and the
single alternation the patterns use).
-/

set_option maxRecDepth 100000

/-! ### Python string primitives -/

/-- The character set of Python's `str.strip()` / regex `\s`. -/
def pyIsSpace (c : Char) : Bool :=
  c == ' ' || c == '\t' || c == '\n' || c == '\r' || c == '\x0b' || c == '\x0c'

/-- Value of an ASCII digit. -/
def digitVal (c : Char) : ℕ := c.toNat - 48

/-- `int()` applied to a run of ASCII digits. -/
def natOfDigits (l : List Char) : ℕ := l.foldl (fun acc c => 10 * acc + digitVal c) 0

/-- Whether `pat` occurs in `s` at offset `i`. -/
def occursAt (pat s : List Char) (i : ℕ) : Bool := pat.isPrefixOf (s.drop i)

/-- Smallest offset at which `pat` occurs in `s` (`str.find` before the `-1` encoding). -/
def findSub (s pat : List Char) : Option ℕ :=
  (List.range (s.length + 1)).find? (occursAt pat s)

/-- Python `s.find(pat)`: smallest offset of `pat` in `s`, `-1` if absent. -/
def pyFind (s pat : List Char) : ℤ :=
  match findSub s pat with
  | some i => (i : ℤ)
  | none => -1

/-- Normalisation of a Python slice bound: negative indices count from the
end and the result is clamped into `[0, len]`. -/
def pyBound (len : ℕ) (i : ℤ) : ℕ :=
  if i < 0 then ((len : ℤ) + i).toNat else min i.toNat len

/-- Python `s[a:b]` for integer bounds. -/
def pySlice (s : List Char) (a b : ℤ) : List Char :=
  (s.take (pyBound s.length b)).drop (pyBound s.length a)

/-- Python `s[a:]`. -/
def pySliceFrom (s : List Char) (a : ℤ) : List Char :=
  pySlice s a (s.length : ℤ)

/-- Fuelled worker for `pySplit`; the fuel `s.length` always suffices for a
non-empty separator because each step drops at least one character. -/
def pySplitF (sep : List Char) : ℕ → List Char → List (List Char)
  | 0, s => [s]
  | fuel + 1, s =>
    match findSub s sep with
    | none => [s]
    | some i => s.take i :: pySplitF sep fuel (s.drop (i + sep.length))

/-- Python `s.split(sep)` for a non-empty separator. -/
def pySplit (s sep : List Char) : List (List Char) := pySplitF sep s.length s

/-- Fuelled worker for `pyReplace`. -/
def pyReplaceF (pat rep : List Char) : ℕ → List Char → List Char
  | 0, s => s
  | fuel + 1, s =>
    match findSub s pat with
    | none => s
    | some i => s.take i ++ rep ++ pyReplaceF pat rep fuel (s.drop (i + pat.length))

/-- Python `s.replace(pat, rep)` for a non-empty pattern. -/
def pyReplace (s pat rep : List Char) : List Char := pyReplaceF pat rep s.length s

/-- Python `s.strip()`. -/
def pyStrip (l : List Char) : List Char :=
  ((l.dropWhile pyIsSpace).reverse.dropWhile pyIsSpace).reverse

/-- Python `s.lower()` (ASCII). -/
def pyLower (l : List Char) : List Char := l.map Char.toLower

/-- Worker for `pyTitle`; the boolean records whether the previous character
was alphabetic. -/
def pyTitleGo : Bool → List Char → List Char
  | _, [] => []
  | prevAlpha, c :: rest =>
    (if c.isAlpha then (if prevAlpha then c.toLower else c.toUpper) else c)
      :: pyTitleGo c.isAlpha rest

/-- Python `s.title()` (ASCII). -/
def pyTitle (l : List Char) : List Char := pyTitleGo false l

/-- `re` scan for the position of the first match: try the pattern matcher
`m` at every suffix, left to right (the final empty suffix included). -/
def scanFirst (m : List Char → Option α) : List Char → Option α
  | [] => m []
  | c :: rest =>
    match m (c :: rest) with
    | some a => some a
    | none => scanFirst m rest

/-! ### SECFiling: header splitting (`sec.py`, `SECFiling._split_header`) -/

def SUBJECT_MARK : List Char := "SUBJECT COMPANY:".toList
def FILER_MARK : List Char := "FILER:".toList
def FILEDBY_MARK : List Char := "FILED BY:".toList
def SECHEADER_END : List Char := "</SEC-HEADER>".toList
def DOCUMENT_MARK : List Char := "<DOCUMENT>".toList
def NBSP_ENTITY : List Char := "&nbsp;".toList
def ONE_SPACE : List Char := " ".toList

/-- `SECFiling.__init__`: `file.replace("&nbsp;", " ")`. -/
def fileNorm (file : List Char) : List Char := pyReplace file NBSP_ENTITY ONE_SPACE

/-- `SECFiling.__init__`: `self._header = self._file[:self._file.find("</SEC-HEADER>")]`. -/
def headerOf (file : List Char) : List Char :=
  pySlice (fileNorm file) 0 (pyFind (fileNorm file) SECHEADER_END)

/-- The marker-bounding part of `SECFiling._split_header` (lines 38-49):
returns `(subject_section, filer_section)` before the filer section is
split into per-filer blocks. -/
def splitHeaderSections (header : List Char) : List Char × List Char :=
  let filerStart0 := pyFind header FILER_MARK
  let filerStart := if filerStart0 = -1 then pyFind header FILEDBY_MARK else filerStart0
  let subjectStart := pyFind header SUBJECT_MARK
  if subjectStart > filerStart then
    (pySliceFrom header subjectStart, pySlice header filerStart subjectStart)
  else
    (pySlice header subjectStart filerStart, pySliceFrom header filerStart)

/-- The block-splitting part of `SECFiling._split_header` (lines 51-54):
`filer_section.split("FILER:")[1:]` (or `"FILED BY:"` when `"FILER:"` is
absent from the header). -/
def filerBlocks (header : List Char) : List (List Char) :=
  let filerSection := (splitHeaderSections header).2
  if pyFind header FILER_MARK = -1 then (pySplit filerSection FILEDBY_MARK).drop 1
  else (pySplit filerSection FILER_MARK).drop 1

/-! ### SECFiling: field extraction (`sec.py`, lines 16-27 and 65-78) -/

/-- Label of `_parse_name`'s pattern `COMPANY CONFORMED NAME:\t\t\t` (three tabs). -/
def NAME_LABEL : List Char := "COMPANY CONFORMED NAME:\t\t\t".toList

/-- Label of `_parse_cik`'s pattern `CENTRAL INDEX KEY:\t\t\t` (three tabs). -/
def CIK_LABEL : List Char := "CENTRAL INDEX KEY:\t\t\t".toList

/-- Label of `_parse_sic`'s pattern `STANDARD INDUSTRIAL CLASSIFICATION:\t` (one tab). -/
def SIC_LABEL : List Char := "STANDARD INDUSTRIAL CLASSIFICATION:\t".toList

/-- One attempted match of `_parse_name`'s regex at the head of `l`: the
label followed by a greedy non-empty run of non-newline characters. -/
def nameAt (l : List Char) : Option (List Char) :=
  if NAME_LABEL.isPrefixOf l then
    let cap := (l.drop NAME_LABEL.length).takeWhile (fun c => c ≠ '\n')
    if cap = [] then none else some cap
  else none

/-- The raw capture group of the first match of `_parse_name`'s regex. -/
def nameCapture (sec : List Char) : Option (List Char) := scanFirst nameAt sec

/-- `SECFiling._parse_name`: first capture, then `.strip().lower().title()`.
`none` models the uncaught `IndexError` of `findall(...)[0]` on no match. -/
def parse_name (sec : List Char) : Option (List Char) :=
  (nameCapture sec).map (fun cap => pyTitle (pyLower (pyStrip cap)))

/-- One attempted match of `_parse_cik`'s regex at the head of `l`: the
label followed by a greedy non-empty digit run. -/
def cikAt (l : List Char) : Option (List Char) :=
  if CIK_LABEL.isPrefixOf l then
    let cap := (l.drop CIK_LABEL.length).takeWhile Char.isDigit
    if cap = [] then none else some cap
  else none

/-- The digit capture of the first match of `_parse_cik`'s regex. -/
def cikCapture (sec : List Char) : Option (List Char) := scanFirst cikAt sec

/-- `SECFiling._parse_cik`: `int(...)` of the first digit capture. -/
def parse_cik (sec : List Char) : Option ℕ :=
  (cikCapture sec).map natOfDigits

/-- One attempted match of `_parse_sic`'s regex
`STANDARD INDUSTRIAL CLASSIFICATION:\t(.+)\[([0-9]+)` at the head of `l`.
The greedy `(.+)` backtracks to the last `[` on the line that is followed
by at least one digit. -/
def sicAt (l : List Char) : Option (List Char × ℕ) :=
  if SIC_LABEL.isPrefixOf l then
    let r := l.drop SIC_LABEL.length
    let line := r.takeWhile (fun c => c ≠ '\n')
    let ks := (List.range line.length).filter
      (fun k => 1 ≤ k ∧ line.get? k = some '[' ∧ (r.drop (k + 1)).takeWhile Char.isDigit ≠ [])
    match ks.getLast? with
    | some k => some (line.take k, natOfDigits ((r.drop (k + 1)).takeWhile Char.isDigit))
    | none => none
  else none

/-- `SECFiling._parse_sic`: first match, name normalised by
`.strip().lower().title()`, code by `int(...)`. -/
def parse_sic (sec : List Char) : Option (List Char × ℕ) :=
  (scanFirst sicAt sec).map (fun p => (pyTitle (pyLower (pyStrip p.1)), p.2))

/-- One filer record as assembled by `SECFiling.__init__` (lines 20-27). -/
structure Filer where
  name : List Char
  cik : ℕ
  sic_name : Option (List Char)
  sic_code : Option ℕ
deriving DecidableEq, Repr

/-- The uncaught "first match" lookup failures of `SECFiling.__init__`:
`findall(...)[0]` raising `IndexError` in `_parse_name` or `_parse_cik`. -/
inductive HeaderParseErr where
  | nameNotFound
  | cikNotFound
deriving DecidableEq, Repr

/-- The loop body of `SECFiling.__init__` (lines 20-27) for one filer
block: name and CIK failures propagate; a `_parse_sic` failure is caught
and replaced by a pair of absent values. -/
def processFilerItem (item : List Char) : Except HeaderParseErr Filer :=
  match parse_name item with
  | none => .error .nameNotFound
  | some n =>
    match parse_cik item with
    | none => .error .cikNotFound
    | some c =>
      match parse_sic item with
      | none => .ok ⟨n, c, none, none⟩
      | some p => .ok ⟨n, c, some p.1, some p.2⟩

/-- The filer loop of `SECFiling.__init__` (lines 16-27): empty blocks are
skipped, records are appended in order, the first failure propagates. -/
def parseFilers : List (List Char) → Except HeaderParseErr (List Filer)
  | [] => .ok []
  | item :: rest =>
    if item = [] then parseFilers rest
    else
      match processFilerItem item with
      | .error e => .error e
      | .ok f =>
        match parseFilers rest with
        | .error e => .error e
        | .ok fs => .ok (f :: fs)

/-- The filer list computed by `SECFiling.__init__` from the raw filing
text: normalise, cut the header, split it, parse every filer block. -/
def secFilers (file : List Char) : Except HeaderParseErr (List Filer) :=
  parseFilers (filerBlocks (headerOf file))

/-- Whether an optional name capture holds at least one non-whitespace
character (so that `.strip()` cannot erase it). -/
def goodNameCap : Option (List Char) → Bool
  | some cap => cap.any (fun c => !(pyIsSpace c))
  | none => false

/-- A filing whose single filer block carries both the conformed-name and
central-index-key labels, but whose conformed-name value is a lone space. -/
def C2CEX : List Char :=
  ("SUBJECT COMPANY:\nFILER:\nCOMPANY CONFORMED NAME:\t\t\t \nCENTRAL INDEX KEY:\t\t\t123\n</SEC-HEADER><DOCUMENT>").toList

/-- A filing with two well-formed filer blocks. -/
def C2WIT : List Char :=
  ("SUBJECT COMPANY:\nFILER:\nCOMPANY CONFORMED NAME:\t\t\tACME CORP\nCENTRAL INDEX KEY:\t\t\t123\nFILER:\nCOMPANY CONFORMED NAME:\t\t\tbeta llc\nCENTRAL INDEX KEY:\t\t\t456\n</SEC-HEADER><DOCUMENT>").toList

/-- A filer block with name and CIK labels but no classification line. -/
def C8IT1 : List Char :=
  ("COMPANY CONFORMED NAME:\t\t\tx\nCENTRAL INDEX KEY:\t\t\t7\n").toList

/-- A filer block carrying neither label. -/
def C8IT2 : List Char := ("no labels here").toList

/-- A filer block with a name label but no central-index-key label. -/
def C8IT3 : List Char := ("COMPANY CONFORMED NAME:\t\t\ty\n").toList

/-! ### TipranksReader (`tipranks.py`): sorting and sort-key validation

The records below model the reshaped entries built by `covering_analysts`
(lines 78-111), `insider_trades` (lines 141-161) and
`institutional_ownership` (lines 182-198); upstream JSON values that can be
`null` are `Option`s.  The network fetch of `_get_ratings_data` is outside
the embedding: each method takes the would-be payload as an argument and
additionally reports how many fetches it performed, `0` when it raised
before fetching. -/

/-- A Python sort-key value as used by the `sorted(...)` calls: either a
string or a number.  For any one sort key all compared values have the same
constructor; the cross-constructor cases of the order below are arbitrary
and never reached. -/
inductive PVal where
  | str : List Char → PVal
  | num : ℚ → PVal
deriving DecidableEq, Repr

/-- Lexicographic order on Python strings. -/
def strLe : List Char → List Char → Bool
  | [], _ => true
  | _ :: _, [] => false
  | a :: as, b :: bs => if a < b then true else if b < a then false else strLe as bs

/-- Order on sort-key values. -/
def pvalLe : PVal → PVal → Bool
  | .num a, .num b => decide (a ≤ b)
  | .str a, .str b => strLe a b
  | .num _, .str _ => true
  | .str _, .num _ => false

/-- The key tuple `(x is None, x)` used by every `sorted` call of
`tipranks.py`, compared ascending: any present value sorts before `None`,
and two `None`s tie. -/
def optPValLe : Option PVal → Option PVal → Bool
  | none, none => true
  | none, some _ => false
  | some _, none => true
  | some a, some b => pvalLe a b

/-- Specialisation of the key tuple order to numeric keys. -/
def optQLe : Option ℚ → Option ℚ → Bool
  | none, none => true
  | none, some _ => false
  | some _, none => true
  | some a, some b => decide (a ≤ b)

/-- Python `sorted(data, key=lambda x: (key(x) is None, key(x)), reverse=desc)`
for a numeric key: a stable sort, descending when `desc`. -/
def pySortOptQ (desc : Bool) (key : α → Option ℚ) (l : List α) : List α :=
  if desc then List.insertionSort (fun a b => optQLe (key b) (key a) = true) l
  else List.insertionSort (fun a b => optQLe (key a) (key b) = true) l

/-- Python `sorted(data, key=lambda x: (key(x) is None, key(x)), reverse=desc)`
for a general key. -/
def pySortPVal (desc : Bool) (key : α → Option PVal) (l : List α) : List α :=
  if desc then List.insertionSort (fun a b => optPValLe (key b) (key a) = true) l
  else List.insertionSort (fun a b => optPValLe (key a) (key b) = true) l

/-- One reshaped covering-analyst record (lines 78-111).  `price_target`
models `ratings[0]["price_target"]`; `analyst_ranking` fields are inlined. -/
structure Analyst where
  name : Option (List Char)
  firm : Option (List Char)
  stock_success_rate : Option ℚ
  average_rating_return_stock : Option ℚ
  total_recommendations_stock : Option ℚ
  positive_recommendations_stock : Option ℚ
  consensus_analyst : Bool
  price_target : Option ℚ
  rank : Option ℚ
  successful_recommendations : Option ℚ
  total_recommendations : Option ℚ
  percentage_successful_recommendations : Option ℚ
  average_rating_return : Option ℚ
  stars : Option ℚ
deriving DecidableEq, Repr

def TK_name : List Char := "name".toList
def TK_firm : List Char := "firm".toList
def TK_stock_success_rate : List Char := "stock_success_rate".toList
def TK_average_rating_return_stock : List Char := "average_rating_return_stock".toList
def TK_total_recommendations_stock : List Char := "total_recommendations_stock".toList
def TK_positive_recommendations_stock : List Char := "positive_recommendations_stock".toList
def TK_price_target : List Char := "price_target".toList
def TK_rank : List Char := "rank".toList
def TK_successful_recommendations : List Char := "successful_recommendations".toList
def TK_total_recommendations : List Char := "total_recommendations".toList
def TK_average_rating_return : List Char := "average_rating_return".toList
def TK_stars : List Char := "stars".toList
def TK_percentage_successful_recommendations : List Char :=
  "percentage_successful_recommendations".toList
def TK_amount : List Char := "amount".toList
def TK_shares : List Char := "shares".toList
def TK_report_date : List Char := "report_date".toList
def TK_value : List Char := "value".toList
def TK_change : List Char := "change".toList
def TK_percentage_of_portfolio : List Char := "percentage_of_portfolio".toList

/-- `sort_variables` of `covering_analysts` (lines 60-73). -/
def coveringSortVars : List (List Char) :=
  [TK_name, TK_firm, TK_stock_success_rate, TK_average_rating_return_stock,
   TK_total_recommendations_stock, TK_positive_recommendations_stock,
   TK_price_target, TK_rank, TK_successful_recommendations,
   TK_total_recommendations, TK_average_rating_return, TK_stars]

/-- The tuple tested by the first sorting branch (lines 117-124). -/
def rankBranchKeys : List (List Char) :=
  [TK_rank, TK_successful_recommendations, TK_total_recommendations,
   TK_percentage_successful_recommendations, TK_average_rating_return, TK_stars]

/-- `x["analyst_ranking"][sorted_by]` for the keys of the first branch. -/
def rankingKey (k : List Char) (x : Analyst) : Option ℚ :=
  if k = TK_rank then x.rank
  else if k = TK_successful_recommendations then x.successful_recommendations
  else if k = TK_total_recommendations then x.total_recommendations
  else if k = TK_percentage_successful_recommendations then
    x.percentage_successful_recommendations
  else if k = TK_average_rating_return then x.average_rating_return
  else if k = TK_stars then x.stars
  else none

/-- `x[sorted_by]` for the keys reaching the final `else` branch. -/
def topKey (k : List Char) (x : Analyst) : Option PVal :=
  if k = TK_name then x.name.map .str
  else if k = TK_firm then x.firm.map .str
  else if k = TK_stock_success_rate then x.stock_success_rate.map .num
  else if k = TK_average_rating_return_stock then x.average_rating_return_stock.map .num
  else if k = TK_total_recommendations_stock then x.total_recommendations_stock.map .num
  else if k = TK_positive_recommendations_stock then
    x.positive_recommendations_stock.map .num
  else none

/-- `desc = False if sorted_by in ("name", "firm") else True` (line 116,
also line 200 of `institutional_ownership`). -/
def descForKey (sorted_by : List Char) : Bool :=
  if sorted_by ∈ ([TK_name, TK_firm] : List (List Char)) then false else true

/-- The three-way sort dispatch of `covering_analysts` (lines 117-129). -/
def coveringSorted (sorted_by : List Char) (data : List Analyst) : List Analyst :=
  if sorted_by ∈ rankBranchKeys then
    pySortOptQ (descForKey sorted_by) (rankingKey sorted_by) data
  else if sorted_by = TK_price_target then
    pySortOptQ (descForKey sorted_by) (fun x => x.price_target) data
  else pySortPVal (descForKey sorted_by) (topKey sorted_by) data

/-- `TipranksReader.covering_analysts` (lines 59-131): sort-key validation
before the fetch, retail filtering, direction choice and the three-way
keyed sort.  The second component counts payload fetches (`0` when the
`ValueError` fires); the error carries the allowed key set named in the
raised message. -/
def covering_analysts (sorted_by : List Char) (include_retail : Bool)
    (experts : List Analyst) : Except (List (List Char)) (List Analyst) × ℕ :=
  if sorted_by ∈ coveringSortVars then
    (.ok (coveringSorted sorted_by
      (if include_retail then experts else experts.filter (fun x => x.consensus_analyst))), 1)
  else (.error coveringSortVars, 0)

/-- One reshaped insider-trade record (lines 141-161).  `report_date` is a
string or a timestamp depending on the `timestamps` flag, hence a `PVal`. -/
structure Insider where
  name : Option (List Char)
  company : Option (List Char)
  officer : Bool
  director : Bool
  title : Option (List Char)
  amount : Option ℚ
  shares : Option ℚ
  report_date : Option PVal
  file_url : Option (List Char)
  image_url : Option (List Char)
deriving DecidableEq, Repr

/-- `sort_variables` of `insider_trades` (line 134). -/
def insiderSortVars : List (List Char) := [TK_name, TK_amount, TK_shares, TK_report_date]

/-- `x[sorted_by]` for `insider_trades`. -/
def insiderKey (k : List Char) (x : Insider) : Option PVal :=
  if k = TK_name then x.name.map .str
  else if k = TK_amount then x.amount.map .num
  else if k = TK_shares then x.shares.map .num
  else if k = TK_report_date then x.report_date
  else none

/-- `TipranksReader.insider_trades` (lines 133-166). -/
def insider_trades (sorted_by : List Char) (insiders : List Insider)
    (trades_sum : ℚ) : Except (List (List Char)) (List Insider × ℚ) × ℕ :=
  if sorted_by ∈ insiderSortVars then
    (.ok (pySortPVal
      (if sorted_by ∈ ([TK_amount, TK_shares, TK_report_date] : List (List Char)) then true
        else false)
      (insiderKey sorted_by) insiders, trades_sum), 1)
  else (.error insiderSortVars, 0)

/-- One reshaped institutional-holding record (lines 182-198). -/
structure Holder where
  name : Option (List Char)
  firm : Option (List Char)
  stars : Option ℚ
  rank : Option ℚ
  ranked_institutions : Option ℚ
  value : Option ℚ
  change : Option ℚ
  percentage_of_portfolio : Option ℚ
  image_url : Option (List Char)
deriving DecidableEq, Repr

/-- `sort_variables` of `institutional_ownership` (lines 169-177). -/
def institutionalSortVars : List (List Char) :=
  [TK_name, TK_firm, TK_stars, TK_rank, TK_value, TK_change, TK_percentage_of_portfolio]

/-- `x[sorted_by]` for `institutional_ownership`. -/
def holderKey (k : List Char) (x : Holder) : Option PVal :=
  if k = TK_name then x.name.map .str
  else if k = TK_firm then x.firm.map .str
  else if k = TK_stars then x.stars.map .num
  else if k = TK_rank then x.rank.map .num
  else if k = TK_value then x.value.map .num
  else if k = TK_change then x.change.map .num
  else if k = TK_percentage_of_portfolio then x.percentage_of_portfolio.map .num
  else none

/-- `TipranksReader.institutional_ownership` (lines 168-203). -/
def institutional_ownership (sorted_by : List Char) (holders : List Holder) :
    Except (List (List Char)) (List Holder) × ℕ :=
  if sorted_by ∈ institutionalSortVars then
    (.ok (pySortPVal (descForKey sorted_by) (holderKey sorted_by) holders), 1)
  else (.error institutionalSortVars, 0)

/-- An analyst record with every payload-dependent field absent except the
given star rating and consensus membership. -/
def mkAnalyst (stars : Option ℚ) : Analyst :=
  ⟨none, none, none, none, none, none, true, none, none, none, none, none, none, stars⟩

/-- Whether an `Except` result is a success (no validation error raised). -/
def isOkE : Except ε α → Bool
  | .ok _ => true
  | .error _ => false

/-- A sort key outside every allowed set. -/
def BOGUS_KEY : List Char := "bogus".toList

/-! ### YahooReader.historical_data (`yahoo.py`, lines 326-349)

A row of the merged price/dividend frame: `close` is `none` for an index
entry contributed only by the dividend table (no matching price bar), and
`dividends` is `none` where the frame holds `NaN`.  Timestamps are the
integer index values (dates are order-isomorphic to them). -/

structure Row where
  ts : ℤ
  close : Option ℚ
  dividends : Option ℚ
deriving DecidableEq, Repr

/-- The carry loop of lines 335-337 (and identically lines 346-348 for the
splits column): the condition is evaluated on a pre-loop copy of the event
column, so a value moves at most one row and writes never cascade. -/
def carryStep (rows : List Row) : List Row :=
  match rows with
  | [] => []
  | r0 :: tail =>
    r0 :: (rows.zip tail).map (fun pc =>
      if pc.1.dividends.isSome ∧ pc.2.dividends = none ∧ pc.1.close = none
      then ⟨pc.2.ts, pc.2.close, pc.1.dividends⟩ else pc.2)

/-- Lines 335-338: the carry loop followed by `df = df[df["close"].notna()]`. -/
def weeklyCarryFilter (rows : List Row) : List Row :=
  (carryStep rows).filter (fun r => r.close.isSome)

/-- Python `l[-k]` (`prices.index[-1]`, `prices.index[-2]`): `none` models
the `IndexError` raised when the series holds fewer than `k` entries. -/
def pyGetNeg (l : List α) (k : ℕ) : Option α :=
  if 1 ≤ k ∧ k ≤ l.length then l.get? (l.length - k) else none

/-- Lines 326-327: `if prices.index[-1] == prices.index[-2]: prices = prices[:-1]`.
The accessor reads both negative indices unconditionally, so a series of
fewer than two bars fails. -/
def dropTrailingDup (prices : List (ℤ × ℚ)) : Option (List (ℤ × ℚ)) :=
  match pyGetNeg prices 1, pyGetNeg prices 2 with
  | some a, some b => some (if a.1 = b.1 then prices.dropLast else prices)
  | _, _ => none

/-- Dividend attached to the price bar at timestamp `t` by the index join. -/
def lookupDiv (t : ℤ) (divs : List (ℤ × ℚ)) : Option ℚ :=
  (divs.find? (fun dv => decide (dv.1 = t))).map (fun dv => dv.2)

/-- Lines 330-331: `pd.concat([prices, df_div], axis=1)` followed by
`df.sort_index()`, for frames with unique indices: price bars keep their
aligned dividend, dividend-only timestamps become rows without a close,
and the union is stably sorted by timestamp. -/
def mergeDivs (prices divs : List (ℤ × ℚ)) : List Row :=
  List.insertionSort (fun a b : Row => a.ts ≤ b.ts)
    ((prices.map (fun p => ⟨p.1, some p.2, lookupDiv p.1 divs⟩)) ++
      ((divs.filter (fun dv => !(prices.any (fun p => decide (p.1 = dv.1))))).map
        (fun dv => ⟨dv.1, none, some dv.2⟩)))

/-- The row pipeline of `historical_data` (lines 326-338): trailing
duplicate-bar removal, merge with the dividend frame, and — at weekly,
monthly or quarterly frequency — the carry loop and the removal of rows
without a close. -/
def historical_data_table (prices divs : List (ℤ × ℚ)) (weekly : Bool) :
    Option (List Row) :=
  (dropTrailingDup prices).map (fun p =>
    if weekly then weeklyCarryFilter (mergeDivs p divs) else mergeDivs p divs)

/-- Whether the final two index entries of the returned table differ. -/
def noTrailingDup (l : List Row) : Bool :=
  match l.reverse with
  | a :: b :: _ => decide (a.ts ≠ b.ts)
  | _ => true

/-- Merged weekly frame: a dividend lands on a priceless bar, the next bar
is also priceless, and only the bar after that carries a price. -/
def C4CEX : List Row := [⟨1, none, some 1⟩, ⟨2, none, none⟩, ⟨3, some 5, none⟩]

/-- A fetched price series whose final three timestamps coincide. -/
def C6CEX : List (ℤ × ℚ) := [(5, 1), (5, 2), (5, 3)]

/-! ### Filing13D._parse_cusip (`sec.py`, lines 181-190)

The regex `([0-9A-Z]{4}[0-9A-Za-z]{2}[- ]*[0-9]{2}[- ]*[0-9])` is embedded
as a deterministic matcher: every quantifier is either of fixed count or a
greedy class run whose class is disjoint from the following one, so the
regex engine never backtracks on this pattern. -/

/-- The class `[0-9A-Z]`. -/
def classUD (c : Char) : Bool := c.isUpper || c.isDigit

/-- The class `[0-9A-Za-z]`. -/
def classAN (c : Char) : Bool := c.isUpper || c.isLower || c.isDigit

/-- The class `[- ]`. -/
def classSep (c : Char) : Bool := c == '-' || c == ' '

/-- Match exactly `n` characters of class `p`, returning them and the rest. -/
def takeClass (p : Char → Bool) (n : ℕ) (l : List Char) : Option (List Char × List Char) :=
  if (l.take n).length = n ∧ (l.take n).all p = true then some (l.take n, l.drop n)
  else none

/-- One attempted match of the identifier pattern at the head of `l`:
four `[0-9A-Z]`, two `[0-9A-Za-z]`, a greedy separator run, two digits, a
greedy separator run, one digit.  Returns the matched text and the rest. -/
def cusipAt (l : List Char) : Option (List Char × List Char) :=
  (takeClass classUD 4 l).bind (fun p4 =>
    (takeClass classAN 2 p4.2).bind (fun p2 =>
      (takeClass (fun c => c.isDigit) 2 (p2.2.dropWhile classSep)).bind (fun pd2 =>
        (takeClass (fun c => c.isDigit) 1 (pd2.2.dropWhile classSep)).bind (fun pd1 =>
          some (p4.1 ++ p2.1 ++ p2.2.takeWhile classSep ++ pd2.1 ++
            pd2.2.takeWhile classSep ++ pd1.1, pd1.2)))))

/-- `re.findall` for the identifier pattern: leftmost, non-overlapping
matches; the fuel (initially the document length) bounds the scan. -/
def cusipScanF : ℕ → List Char → List (List Char)
  | 0, _ => []
  | _ + 1, [] => []
  | fuel + 1, c :: cs =>
    match cusipAt (c :: cs) with
    | some (m, rest) => m :: cusipScanF fuel rest
    | none => cusipScanF fuel cs

/-- All raw candidate matches of the identifier pattern in the flattened
document. -/
def rawCusips (docFlat : List Char) : List (List Char) := cusipScanF docFlat.length docFlat

/-- `item.strip().replace(" ", "").replace("-", "")` — replacing a single
character by the empty string removes exactly its occurrences. -/
def canonCusip (item : List Char) : List Char :=
  ((pyStrip item).filter (fun c => c ≠ ' ')).filter (fun c => c ≠ '-')

/-- Python `max(l, key=len)`: the first element of maximal length; `none`
models the `ValueError` raised on an empty candidate list. -/
def pyMaxByLen (l : List (List Char)) : Option (List Char) :=
  l.foldl (fun acc x =>
    match acc with
    | none => some x
    | some m => if m.length < x.length then some x else acc) none

/-- `Filing13D._parse_cusip` from the flattened document text onward:
canonicalise every candidate, then take the longest by character count. -/
def parse_cusip (docFlat : List Char) : Option (List Char) :=
  pyMaxByLen ((rawCusips docFlat).map canonCusip)

/-- A flattened document carrying two identifier candidates: the first has
no separators (raw length 9), the second has two (raw length 11). -/
def C5CEX : List Char := "AAAA11223 BBBB44-55-6".toList

/-! ### Filing13D._parse_percent_acquired (`sec.py`, lines 192-197)

The regex
`(?i)PERCENT(?:AGE|)\s*OF\s*CLASS\s*REPRESENTED\s*BY\s+AMOUNT\s*IN\s*ROW.*?\s*([0-9.,]+)\s?%`
is embedded as a deterministic matcher: the literal words match
case-insensitively, each `\s*` or `\s+` run is greedy against a following
word of disjoint characters, the single alternation tries the longer branch
first with full-continuation fallback, and the lazy gap expands one
character at a time (never across a newline) until the suffix matches. -/

/-- Case-insensitive literal match at the head of the text, returning the
rest. -/
def ciStarts : List Char → List Char → Option (List Char)
  | [], l => some l
  | _ :: _, [] => none
  | p :: ps, c :: cs => if c.toLower = p.toLower then ciStarts ps cs else none

/-- The class `[0-9.,]`. -/
def numClass (c : Char) : Bool := c.isDigit || c == '.' || c == ','

def PCT_PERCENT : List Char := "PERCENT".toList
def PCT_AGE : List Char := "AGE".toList
def PCT_OF : List Char := "OF".toList
def PCT_CLASS : List Char := "CLASS".toList
def PCT_REPRESENTED : List Char := "REPRESENTED".toList
def PCT_BY : List Char := "BY".toList
def PCT_AMOUNT : List Char := "AMOUNT".toList
def PCT_IN : List Char := "IN".toList
def PCT_ROW : List Char := "ROW".toList

/-- `\s*([0-9.,]+)\s?%` at the current position: greedy whitespace, then a
non-empty greedy run of the numeric class as the capture, then the percent
sign with at most one whitespace before it. -/
def pctNumAt (l : List Char) : Option (List Char) :=
  if (l.dropWhile pyIsSpace).takeWhile numClass = [] then none
  else
    match (l.dropWhile pyIsSpace).dropWhile numClass with
    | c :: rest2 =>
      if c = '%' then some ((l.dropWhile pyIsSpace).takeWhile numClass)
      else if pyIsSpace c then
        match rest2 with
        | c2 :: _ =>
          if c2 = '%' then some ((l.dropWhile pyIsSpace).takeWhile numClass) else none
        | [] => none
      else none
    | [] => none

/-- The lazy gap `.*?` followed by `\s*([0-9.,]+)\s?%`: try the suffix at
the current position, else consume one non-newline character and retry. -/
def pctLazy : List Char → Option (List Char)
  | [] => pctNumAt []
  | c :: rest =>
    match pctNumAt (c :: rest) with
    | some cap => some cap
    | none => if c ≠ '\n' then pctLazy rest else none

/-- `\s+`: at least one whitespace character, consumed greedily. -/
def spacePlus (l : List Char) : Option (List Char) :=
  match l with
  | c :: rest => if pyIsSpace c then some (rest.dropWhile pyIsSpace) else none
  | [] => none

/-- The pattern after `PERCENT(?:AGE|)`:
`\s*OF\s*CLASS\s*REPRESENTED\s*BY\s+AMOUNT\s*IN\s*ROW` then the lazy gap
and the capture. -/
def pctTail (l : List Char) : Option (List Char) :=
  (ciStarts PCT_OF (l.dropWhile pyIsSpace)).bind (fun l2 =>
    (ciStarts PCT_CLASS (l2.dropWhile pyIsSpace)).bind (fun l3 =>
      (ciStarts PCT_REPRESENTED (l3.dropWhile pyIsSpace)).bind (fun l4 =>
        (ciStarts PCT_BY (l4.dropWhile pyIsSpace)).bind (fun l5 =>
          (spacePlus l5).bind (fun l6 =>
            (ciStarts PCT_AMOUNT l6).bind (fun l7 =>
              (ciStarts PCT_IN (l7.dropWhile pyIsSpace)).bind (fun l8 =>
                (ciStarts PCT_ROW (l8.dropWhile pyIsSpace)).bind (fun l9 =>
                  pctLazy l9))))))))

/-- One attempted match of the whole percent pattern at the head of `l`:
the literal `PERCENT`, the alternation `(?:AGE|)` (longer branch first,
with fallback to the empty branch when the continuation fails), then
`pctTail`. -/
def pctAt (l : List Char) : Option (List Char) :=
  (ciStarts PCT_PERCENT l).bind (fun r1 =>
    match ciStarts PCT_AGE r1 with
    | some r2 =>
      match pctTail r2 with
      | some cap => some cap
      | none => pctTail r1
    | none => pctTail r1)

/-- The capture of `findall(...)[0]` for the percent pattern. -/
def pctCapture (docFlat : List Char) : Option (List Char) := scanFirst pctAt docFlat

def DOT : List Char := ".".toList

/-- Python `float()` on a `[0-9.,]+` token, as an exact rational: rejects
commas, the empty token and more than one dot.  `none` models the raised
`ValueError`. -/
def pyFloat (tok : List Char) : Option ℚ :=
  if tok.contains ',' then none
  else
    match pySplit tok DOT with
    | [a] => if a ≠ [] ∧ a.all Char.isDigit then some (natOfDigits a : ℚ) else none
    | [a, b] =>
      if (a ≠ [] ∨ b ≠ []) ∧ a.all Char.isDigit ∧ b.all Char.isDigit then
        some ((natOfDigits a : ℚ) + (natOfDigits b : ℚ) / (10 : ℚ) ^ b.length)
      else none
    | _ => none

/-- Round to the nearest integer, ties to even (Python `round`). -/
def roundHalfEven (x : ℚ) : ℤ :=
  if x - ⌊x⌋ < 1 / 2 then ⌊x⌋
  else if 1 / 2 < x - ⌊x⌋ then ⌊x⌋ + 1
  else if ⌊x⌋ % 2 = 0 then ⌊x⌋ else ⌊x⌋ + 1

/-- Python `round(x, 8)` over exact rationals. -/
def round8 (x : ℚ) : ℚ := (roundHalfEven (x * 100000000) : ℚ) / 100000000

/-- `Filing13D._parse_percent_acquired` from the flattened document text
onward: first capture of the percent pattern, `float(...)`, division by
100 and rounding to 8 decimal places. -/
def parse_percent_acquired (docFlat : List Char) : Option ℚ :=
  (pctCapture docFlat).bind (fun tok => (pyFloat tok).map (fun v => round8 (v / 100)))

/-- The boilerplate phrase, including a row label, up to the numeric token. -/
def PCT_PHRASE : List Char := "PERCENT OF CLASS REPRESENTED BY AMOUNT IN ROW (11): ".toList

/-! ### Facts about the primitives -/

theorem findSub_occursAt {s pat : List Char} {i : ℕ} (h : findSub s pat = some i) :
    occursAt pat s i = true :=
  List.find?_some h

theorem findSub_le_length {s pat : List Char} {i : ℕ} (h : findSub s pat = some i) :
    i ≤ s.length := by
  have hm := List.mem_of_find?_eq_some h
  have := List.mem_range.mp hm
  omega

theorem occursAt_lt_length {s pat : List Char} {i : ℕ} (hp : pat ≠ [])
    (h : occursAt pat s i = true) : i < s.length := by
  unfold occursAt at h
  have hpre := List.isPrefixOf_iff_prefix.mp h
  rcases hpre with ⟨t, ht⟩
  by_contra hle
  push_neg at hle
  have : s.drop i = [] := List.drop_eq_nil_iff.mpr hle
  rw [this] at ht
  have : pat = [] := by
    cases pat with
    | nil => rfl
    | cons a l => simp at ht
  exact hp this

theorem occursAt_head {s pat : List Char} {i : ℕ} {c : Char}
    (hp : pat.head? = some c) (h : occursAt pat s i = true) :
    (s.drop i).head? = some c := by
  unfold occursAt at h
  have hpre := List.isPrefixOf_iff_prefix.mp h
  rcases hpre with ⟨t, ht⟩
  cases pat with
  | nil => simp at hp
  | cons a l =>
    simp only [List.head?_cons, Option.some.injEq] at hp
    rw [← ht, hp]
    rfl

theorem pySlice_eq_drop_take {s : List Char} {a b : ℕ} (ha : a ≤ s.length)
    (hb : b ≤ s.length) :
    pySlice s (a : ℤ) (b : ℤ) = (s.drop a).take (b - a) := by
  unfold pySlice pyBound
  have hna : ¬ ((a : ℤ) < 0) := by omega
  have hnb : ¬ ((b : ℤ) < 0) := by omega
  rw [if_neg hna, if_neg hnb]
  simp only [Int.toNat_ofNat]
  rw [min_eq_left ha, min_eq_left hb]
  exact List.drop_take b a s

theorem pySliceFrom_eq_drop {s : List Char} {a : ℕ} (ha : a ≤ s.length) :
    pySliceFrom s (a : ℤ) = s.drop a := by
  unfold pySliceFrom
  rw [pySlice_eq_drop_take ha (le_refl s.length)]
  have : s.length - a = (s.drop a).length := by
    rw [List.length_drop]
  rw [this, List.take_length]

theorem pyFind_eq_of_findSub {s pat : List Char} {i : ℕ} (h : findSub s pat = some i) :
    pyFind s pat = (i : ℤ) := by
  unfold pyFind
  rw [h]

theorem pyFind_eq_neg_one {s pat : List Char} (h : findSub s pat = none) :
    pyFind s pat = -1 := by
  unfold pyFind
  rw [h]

theorem subject_filer_offsets_ne {header : List Char} {s f : ℕ}
    (hs : findSub header SUBJECT_MARK = some s)
    (hf : findSub header FILER_MARK = some f ∨
      (findSub header FILER_MARK = none ∧ findSub header FILEDBY_MARK = some f)) :
    s ≠ f := by
  intro hsf
  have hSubjHead : (header.drop s).head? = some 'S' :=
    occursAt_head (by decide) (findSub_occursAt hs)
  have hFilerHead : (header.drop f).head? = some 'F' := by
    rcases hf with hf | ⟨_, hf⟩
    · exact occursAt_head (by decide) (findSub_occursAt hf)
    · exact occursAt_head (by decide) (findSub_occursAt hf)
  rw [hsf] at hSubjHead
  rw [hSubjHead] at hFilerHead
  simp at hFilerHead

/-- Claim C1: when the header contains both the subject-company marker and a
filer marker (`"FILER:"`, or `"FILED BY:"` when `"FILER:"` is absent), the
splitter bounds the two sections purely by the markers' text offsets: the
earlier-offset section runs from its marker to the later marker, and the
later-offset section runs from its marker to the end of the header,
whichever marker comes first. -/
theorem sec_split_header_orders_by_offset
    (header : List Char) (s f : ℕ)
    (hs : findSub header SUBJECT_MARK = some s)
    (hf : findSub header FILER_MARK = some f ∨
      (findSub header FILER_MARK = none ∧ findSub header FILEDBY_MARK = some f)) :
    s ≠ f ∧
    (s < f → splitHeaderSections header = ((header.drop s).take (f - s), header.drop f)) ∧
    (f < s → splitHeaderSections header = (header.drop s, (header.drop f).take (s - f))) := by
  have hsle : s ≤ header.length := findSub_le_length hs
  have hfle : f ≤ header.length := by
    rcases hf with hf | ⟨_, hf⟩
    · exact findSub_le_length hf
    · exact findSub_le_length hf
  have hne : s ≠ f := subject_filer_offsets_ne hs hf
  have hFilerVal : (if pyFind header FILER_MARK = -1 then pyFind header FILEDBY_MARK
      else pyFind header FILER_MARK) = (f : ℤ) := by
    rcases hf with hf | ⟨hnone, hf⟩
    · rw [pyFind_eq_of_findSub hf]
      rw [if_neg (by omega)]
    · rw [pyFind_eq_neg_one hnone, if_pos rfl, pyFind_eq_of_findSub hf]
  refine ⟨hne, ?_, ?_⟩
  · intro hlt
    unfold splitHeaderSections
    simp only [hFilerVal, pyFind_eq_of_findSub hs]
    rw [if_neg (by omega)]
    rw [pySlice_eq_drop_take hsle hfle, pySliceFrom_eq_drop hfle]
  · intro hlt
    unfold splitHeaderSections
    simp only [hFilerVal, pyFind_eq_of_findSub hs]
    rw [if_pos (by omega)]
    rw [pySlice_eq_drop_take hfle hsle, pySliceFrom_eq_drop hsle]

/-- Witness for C1 at a concrete header in which the subject marker appears
after the filer marker. -/
theorem sec_split_header_orders_by_offset_witness :
    splitHeaderSections ("FILER:abcSUBJECT COMPANY:xyz".toList) =
      (("FILER:abcSUBJECT COMPANY:xyz".toList).drop 9,
        (("FILER:abcSUBJECT COMPANY:xyz".toList).drop 0).take (9 - 0)) :=
  (sec_split_header_orders_by_offset ("FILER:abcSUBJECT COMPANY:xyz".toList) 9 0
    (by decide) (Or.inl (by decide))).2.2 (by decide)

/-! ### Claim C2: filer record extraction -/

theorem pyStrip_ne_nil_of_nonspace {cap : List Char} {c : Char} (hc : c ∈ cap)
    (hns : pyIsSpace c = false) : pyStrip cap ≠ [] := by
  intro hstrip
  unfold pyStrip at hstrip
  have h1 : (cap.dropWhile pyIsSpace).reverse.dropWhile pyIsSpace = [] :=
    List.reverse_eq_nil_iff.mp hstrip
  have h2 := List.dropWhile_eq_nil_iff.mp h1
  have hmem : c ∈ cap.takeWhile pyIsSpace ++ cap.dropWhile pyIsSpace := by
    rw [List.takeWhile_append_dropWhile]
    exact hc
  rcases List.mem_append.mp hmem with h | h
  · have := List.mem_takeWhile_imp h
    rw [hns] at this
    exact Bool.noConfusion this
  · have := h2 c (List.mem_reverse.mpr h)
    rw [hns] at this
    exact Bool.noConfusion this

theorem pyLower_ne_nil {l : List Char} (h : l ≠ []) : pyLower l ≠ [] := by
  unfold pyLower
  simpa using h

theorem pyTitle_ne_nil {l : List Char} (h : l ≠ []) : pyTitle l ≠ [] := by
  cases l with
  | nil => exact absurd rfl h
  | cons c rest => simp [pyTitle, pyTitleGo]

theorem parseFilers_good (items : List (List Char))
    (h : ∀ it ∈ items, it ≠ [] ∧ goodNameCap (nameCapture it) = true ∧
      (cikCapture it).isSome = true) :
    ∃ l, parseFilers items = .ok l ∧ l.length = items.length ∧ ∀ fl ∈ l, fl.name ≠ [] := by
  induction items with
  | nil => exact ⟨[], rfl, rfl, by simp⟩
  | cons it rest ih =>
    obtain ⟨hne, hgood, hcik⟩ := h it (List.mem_cons_self it rest)
    obtain ⟨l, hl, hlen, hnames⟩ := ih (fun x hx => h x (List.mem_cons_of_mem _ hx))
    obtain ⟨cap, hcap⟩ : ∃ cap, nameCapture it = some cap := by
      cases hcase : nameCapture it with
      | none => rw [hcase] at hgood; exact Bool.noConfusion hgood
      | some cap => exact ⟨cap, rfl⟩
    obtain ⟨c, hcmem, hcns⟩ : ∃ c ∈ cap, pyIsSpace c = false := by
      rw [hcap] at hgood
      unfold goodNameCap at hgood
      obtain ⟨c, hcmem, hcb⟩ := List.any_eq_true.mp hgood
      exact ⟨c, hcmem, by revert hcb; cases pyIsSpace c <;> simp⟩
    obtain ⟨digits, hdig⟩ : ∃ d, cikCapture it = some d := by
      cases hcase : cikCapture it with
      | none => rw [hcase] at hcik; exact Bool.noConfusion hcik
      | some d => exact ⟨d, rfl⟩
    have hn : parse_name it = some (pyTitle (pyLower (pyStrip cap))) := by
      unfold parse_name
      rw [hcap]
      rfl
    have hk : parse_cik it = some (natOfDigits digits) := by
      unfold parse_cik
      rw [hdig]
      rfl
    have hnamene : pyTitle (pyLower (pyStrip cap)) ≠ [] :=
      pyTitle_ne_nil (pyLower_ne_nil (pyStrip_ne_nil_of_nonspace hcmem hcns))
    cases hsic : parse_sic it with
    | none =>
      refine ⟨⟨pyTitle (pyLower (pyStrip cap)), natOfDigits digits, none, none⟩ :: l, ?_, by
        simpa using hlen, ?_⟩
      · unfold parseFilers processFilerItem
        rw [if_neg hne, hn, hk, hsic, hl]
      · intro fl hfl
        rcases List.mem_cons.mp hfl with h | h
        · rw [h]; exact hnamene
        · exact hnames fl h
    | some p =>
      refine ⟨⟨pyTitle (pyLower (pyStrip cap)), natOfDigits digits, some p.1, some p.2⟩ :: l,
        ?_, by simpa using hlen, ?_⟩
      · unfold parseFilers processFilerItem
        rw [if_neg hne, hn, hk, hsic, hl]
      · intro fl hfl
        rcases List.mem_cons.mp hfl with h | h
        · rw [h]; exact hnamene
        · exact hnames fl h

/-- Counterexample to claim C2 as stated: a filing whose single filer block
carries both the conformed-name and the central-index-key labels, yet the
parsed record's name is empty, because the captured name value is a lone
space erased by `.strip()`. -/
theorem sec_filer_records_cex :
    (filerBlocks (headerOf C2CEX)).length = 1 ∧
    (∀ it ∈ filerBlocks (headerOf C2CEX),
      (nameCapture it).isSome = true ∧ (cikCapture it).isSome = true) ∧
    secFilers C2CEX = .ok [⟨[], 123, none, none⟩] :=
  ⟨by decide, by decide, rfl⟩

/-- Claim C2 (amended): for a filing whose header splits into N filer
blocks, each non-empty, carrying a conformed-name value with at least one
non-whitespace character and a central-index-key digit capture, parsing
yields exactly N records, each with a non-empty (title-cased) name and an
integer central index key. -/
theorem sec_filer_records_amended (file : List Char) (N : ℕ)
    (hN : (filerBlocks (headerOf file)).length = N)
    (h : ∀ it ∈ filerBlocks (headerOf file), it ≠ [] ∧
      goodNameCap (nameCapture it) = true ∧ (cikCapture it).isSome = true) :
    ∃ l, secFilers file = .ok l ∧ l.length = N ∧ ∀ fl ∈ l, fl.name ≠ [] := by
  obtain ⟨l, hl, hlen, hnames⟩ := parseFilers_good _ h
  exact ⟨l, hl, by rw [hlen, hN], hnames⟩

/-- Witness for the amended C2 at a filing with two well-formed filer blocks. -/
theorem sec_filer_records_amended_witness :
    ∃ l, secFilers C2WIT = .ok l ∧ l.length = 2 ∧ ∀ fl ∈ l, fl.name ≠ [] :=
  sec_filer_records_amended C2WIT 2 (by decide) (by decide)

/-! ### Claim C8: failure policy of header field extraction -/

/-- Claim C8: a classification (`_parse_sic`) failure is recovered locally
by substituting a pair of absent values, and the record is still produced;
a conformed-name or central-index-key extraction failure is not recovered
and propagates to the caller as a first-match lookup error. -/
theorem sec_parse_failure_policy (it : List Char) (rest : List (List Char)) (hne : it ≠ []) :
    (∀ n c, parse_name it = some n → parse_cik it = some c → parse_sic it = none →
      processFilerItem it = .ok ⟨n, c, none, none⟩) ∧
    (parse_name it = none → parseFilers (it :: rest) = .error .nameNotFound) ∧
    (∀ n, parse_name it = some n → parse_cik it = none →
      parseFilers (it :: rest) = .error .cikNotFound) := by
  refine ⟨?_, ?_, ?_⟩
  · intro n c hn hc hs
    unfold processFilerItem
    rw [hn, hc, hs]
  · intro hn
    unfold parseFilers
    rw [if_neg hne]
    unfold processFilerItem
    rw [hn]
  · intro n hn hc
    unfold parseFilers
    rw [if_neg hne]
    unfold processFilerItem
    rw [hn, hc]

/-- Witness for C8: the three failure-policy branches at concrete blocks. -/
theorem sec_parse_failure_policy_witness :
    processFilerItem C8IT1 = .ok ⟨['X'], 7, none, none⟩ ∧
    parseFilers [C8IT2] = .error .nameNotFound ∧
    parseFilers [C8IT3] = .error .cikNotFound :=
  ⟨(sec_parse_failure_policy C8IT1 [] (by decide)).1 ['X'] 7 (by decide) (by decide) (by decide),
   (sec_parse_failure_policy C8IT2 [] (by decide)).2.1 (by decide),
   (sec_parse_failure_policy C8IT3 [] (by decide)).2.2 ['Y'] (by decide) (by decide)⟩

/-! ### Claim C3: null ordering of covering-analyst sorts -/

theorem optQLe_total (x y : Option ℚ) : optQLe x y = true ∨ optQLe y x = true := by
  cases x with
  | none => cases y with
    | none => left; rfl
    | some b => right; rfl
  | some a => cases y with
    | none => left; rfl
    | some b =>
      rcases le_total a b with h | h
      · left; exact decide_eq_true h
      · right; exact decide_eq_true h

theorem optQLe_trans {x y z : Option ℚ} (h1 : optQLe x y = true) (h2 : optQLe y z = true) :
    optQLe x z = true := by
  cases x with
  | none => cases y with
    | none => exact h2
    | some b => exact Bool.noConfusion h1
  | some a => cases z with
    | none => rfl
    | some c =>
      cases y with
      | none => exact Bool.noConfusion h2
      | some b =>
        have hab : a ≤ b := of_decide_eq_true h1
        have hbc : b ≤ c := of_decide_eq_true h2
        exact decide_eq_true (le_trans hab hbc)

/-- Counterexample to claim C3 as stated: sorting covering analysts by
`"stars"` (a descending numeric key) places the entry whose star value is
null first, not last — the last entry of the result carries a present star
value while the head carries the null. -/
theorem covering_analysts_stars_null_cex :
    (covering_analysts TK_stars false
        [mkAnalyst (some 1), mkAnalyst none, mkAnalyst (some 2)]).1 =
      .ok [mkAnalyst none, mkAnalyst (some 2), mkAnalyst (some 1)] ∧
    (mkAnalyst none).stars = none ∧ (mkAnalyst (some 1)).stars ≠ none := by
  refine ⟨?_, rfl, by decide⟩
  rfl

/-- Claim C3 (amended): in `covering_analysts` sorted by the descending
numeric key `"stars"`, every entry with a null star value is placed before
all entries with present star values (nulls first; nulls sort last only
for the ascending keys). -/
theorem covering_analysts_stars_nulls_first (experts : List Analyst) (retail : Bool)
    (out : List Analyst)
    (h : (covering_analysts TK_stars retail experts).1 = .ok out) :
    out.Pairwise (fun a b => b.stars = none → a.stars = none) := by
  have hdata : out = List.insertionSort
      (fun a b : Analyst => optQLe (b.stars) (a.stars) = true)
      (if retail then experts else experts.filter (fun x => x.consensus_analyst)) := by
    have hc : covering_analysts TK_stars retail experts =
        (.ok (List.insertionSort (fun a b : Analyst => optQLe (b.stars) (a.stars) = true)
          (if retail then experts else experts.filter (fun x => x.consensus_analyst))), 1) := by
      unfold covering_analysts
      rw [if_pos (by decide)]
      rfl
    rw [hc] at h
    exact (Except.ok.inj h).symm
  have hTotal : IsTotal Analyst (fun a b : Analyst => optQLe (b.stars) (a.stars) = true) :=
    ⟨fun a b => (optQLe_total b.stars a.stars).elim Or.inl Or.inr⟩
  have hTrans : IsTrans Analyst (fun a b : Analyst => optQLe (b.stars) (a.stars) = true) :=
    ⟨fun _ _ _ h1 h2 => optQLe_trans h2 h1⟩
  have hsorted := @List.sorted_insertionSort Analyst
    (fun a b : Analyst => optQLe (b.stars) (a.stars) = true) (fun _ _ => inferInstance)
    hTotal hTrans
    (if retail then experts else experts.filter (fun x => x.consensus_analyst))
  rw [← hdata] at hsorted
  refine List.Pairwise.imp ?_ hsorted
  intro a b hr hb
  rw [hb] at hr
  cases ha : a.stars with
  | none => rfl
  | some q =>
    rw [ha] at hr
    exact Bool.noConfusion hr

/-- Witness for the amended C3 at a two-element payload. -/
theorem covering_analysts_stars_nulls_first_witness :
    (covering_analysts TK_stars false [mkAnalyst (some 3), mkAnalyst none]).1 =
      .ok [mkAnalyst none, mkAnalyst (some 3)] ∧
    ([mkAnalyst none, mkAnalyst (some 3)]).Pairwise
      (fun a b => b.stars = none → a.stars = none) :=
  ⟨by rfl, covering_analysts_stars_nulls_first [mkAnalyst (some 3), mkAnalyst none]
    false [mkAnalyst none, mkAnalyst (some 3)] (by rfl)⟩

/-! ### Claim C9: sort-key validation before any fetch -/

/-- Claim C9: for `covering_analysts`, `insider_trades` and
`institutional_ownership`, a `sorted_by` outside the method's allowed key
set raises a validation error naming the allowed set before any payload is
fetched (fetch count `0`), and a `sorted_by` inside the set raises no
validation error. -/
theorem sort_key_validation (s : List Char) :
    (s ∉ coveringSortVars → ∀ retail experts,
      covering_analysts s retail experts = (.error coveringSortVars, 0)) ∧
    (s ∈ coveringSortVars → ∀ retail experts,
      isOkE (covering_analysts s retail experts).1 = true ∧
      (covering_analysts s retail experts).2 = 1) ∧
    (s ∉ insiderSortVars → ∀ insiders tsum,
      insider_trades s insiders tsum = (.error insiderSortVars, 0)) ∧
    (s ∈ insiderSortVars → ∀ insiders tsum,
      isOkE (insider_trades s insiders tsum).1 = true ∧
      (insider_trades s insiders tsum).2 = 1) ∧
    (s ∉ institutionalSortVars → ∀ holders,
      institutional_ownership s holders = (.error institutionalSortVars, 0)) ∧
    (s ∈ institutionalSortVars → ∀ holders,
      isOkE (institutional_ownership s holders).1 = true ∧
      (institutional_ownership s holders).2 = 1) := by
  refine ⟨?_, ?_, ?_, ?_, ?_, ?_⟩
  · intro hno retail experts
    unfold covering_analysts
    rw [if_neg hno]
  · intro hyes retail experts
    unfold covering_analysts
    rw [if_pos hyes]
    exact ⟨rfl, rfl⟩
  · intro hno insiders tsum
    unfold insider_trades
    rw [if_neg hno]
  · intro hyes insiders tsum
    unfold insider_trades
    rw [if_pos hyes]
    exact ⟨rfl, rfl⟩
  · intro hno holders
    unfold institutional_ownership
    rw [if_neg hno]
  · intro hyes holders
    unfold institutional_ownership
    rw [if_pos hyes]
    exact ⟨rfl, rfl⟩

/-- Witness for C9: one invalid and one valid key for each method. -/
theorem sort_key_validation_witness :
    covering_analysts BOGUS_KEY false [] = (.error coveringSortVars, 0) ∧
    isOkE (covering_analysts TK_stars false []).1 = true ∧
    insider_trades BOGUS_KEY [] 0 = (.error insiderSortVars, 0) ∧
    isOkE (insider_trades TK_amount [] 0).1 = true ∧
    institutional_ownership BOGUS_KEY [] = (.error institutionalSortVars, 0) ∧
    isOkE (institutional_ownership TK_value []).1 = true :=
  ⟨(sort_key_validation BOGUS_KEY).1 (by decide) false [],
   ((sort_key_validation TK_stars).2.1 (by decide) false []).1,
   (sort_key_validation BOGUS_KEY).2.2.1 (by decide) [] 0,
   ((sort_key_validation TK_amount).2.2.2.1 (by decide) [] 0).1,
   (sort_key_validation BOGUS_KEY).2.2.2.2.1 (by decide) [],
   ((sort_key_validation TK_value).2.2.2.2.2 (by decide) []).1⟩

/-! ### Claim C4: dividend carry-forward at low frequencies -/

/-- Counterexample to claim C4 as stated: in the merged weekly frame a
dividend lands on a priceless bar, the following bar is also priceless and
the bar after that carries a price, yet the returned table contains no
dividend at all — the carry loop tests the pre-loop copy of the column, so
the value moves only one row and is then dropped with the priceless row. -/
theorem weekly_dividend_carry_cex :
    (C4CEX.get? 0).map Row.dividends = some (some 1) ∧
    (C4CEX.get? 0).map Row.close = some none ∧
    (C4CEX.get? 2).map Row.close = some (some 5) ∧
    weeklyCarryFilter C4CEX = [⟨3, some 5, none⟩] ∧
    (∀ r ∈ weeklyCarryFilter C4CEX, r.dividends = none) := by
  refine ⟨rfl, rfl, rfl, rfl, by decide⟩

/-- Claim C4 (amended): a dividend on a priceless bar is carried onto the
immediately following bar; it appears in the returned table when that bar
carries a price and no dividend of its own (when the next bar is also
priceless, or already carries a dividend, the event is dropped instead, as
the counterexample shows). -/
theorem weekly_dividend_carry_amended (rows : List Row) (i : ℕ) (r r' : Row) (d : ℚ)
    (hi : rows.get? i = some r) (hd : r.dividends = some d) (hc : r.close = none)
    (hn : rows.get? (i + 1) = some r') (hc' : (r'.close).isSome = true)
    (hd' : r'.dividends = none) :
    Row.mk r'.ts r'.close (some d) ∈ weeklyCarryFilter rows := by
  cases rows with
  | nil => exact absurd hi (by simp)
  | cons r0 tail =>
    have htail : tail.get? i = some r' := hn
    have hzip : ((r0 :: tail).zip tail).get? i = some (r, r') :=
      (List.get?_zip_eq_some _ _ _ _).mpr ⟨hi, htail⟩
    have hmap : (carryStep (r0 :: tail)).get? (i + 1) = some (Row.mk r'.ts r'.close (some d)) := by
      show (r0 :: ((r0 :: tail).zip tail).map _).get? (i + 1) = _
      rw [List.get?_cons_succ, List.get?_map, hzip]
      have hcond : r.dividends.isSome ∧ r'.dividends = none ∧ r.close = none :=
        ⟨by rw [hd]; rfl, hd', hc⟩
      simp only [Option.map_some']
      rw [if_pos hcond, hd]
    have hmem : Row.mk r'.ts r'.close (some d) ∈ carryStep (r0 :: tail) :=
      List.get?_mem hmap
    exact List.mem_filter.mpr ⟨hmem, hc'⟩

/-- Witness for the amended C4: a dividend on a priceless bar followed by a
priced bar survives onto that bar. -/
theorem weekly_dividend_carry_amended_witness :
    Row.mk 4 (some 9) (some 2) ∈
      weeklyCarryFilter [⟨1, none, some 2⟩, ⟨4, some 9, none⟩] :=
  weekly_dividend_carry_amended [⟨1, none, some 2⟩, ⟨4, some 9, none⟩] 0
    ⟨1, none, some 2⟩ ⟨4, some 9, none⟩ 2 rfl rfl rfl rfl rfl rfl

/-! ### Claim C6: trailing duplicate bar removal -/

/-- Counterexample to claim C6 as stated: a price series whose final three
timestamps coincide has its final two timestamps identical, the last row is
dropped, yet the returned table still ends in a duplicated index entry. -/
theorem trailing_dup_cex :
    (pyGetNeg C6CEX 1).map Prod.fst = some 5 ∧
    (pyGetNeg C6CEX 2).map Prod.fst = some 5 ∧
    historical_data_table C6CEX [] false =
      some [⟨5, some 1, none⟩, ⟨5, some 2, none⟩] ∧
    noTrailingDup [⟨5, some 1, none⟩, ⟨5, some 2, none⟩] = false := by
  refine ⟨rfl, rfl, rfl, rfl⟩

/-- Claim C6 (amended): when the final two timestamps of a sorted fetched
price series are identical, the last row is dropped before merging; the
returned table then has no trailing duplicate index entry provided the bar
before the dropped pair carries a different timestamp. -/
theorem trailing_dup_amended (init : List (ℤ × ℚ)) (a b : ℤ × ℚ)
    (hdup : a.1 = b.1)
    (hsorted : (init ++ [a]).Pairwise (fun p q => p.1 ≤ q.1))
    (hprev : (init.getLast?).all (fun c => decide (c.1 ≠ a.1)) = true) :
    historical_data_table (init ++ [a, b]) [] false =
      some ((init ++ [a]).map (fun p => Row.mk p.1 (some p.2) none)) ∧
    noTrailingDup ((init ++ [a]).map (fun p => Row.mk p.1 (some p.2) none)) = true := by
  have hlen : (init ++ [a, b]).length = init.length + 2 := by simp
  have hget1 : pyGetNeg (init ++ [a, b]) 1 = some b := by
    unfold pyGetNeg
    rw [if_pos (by omega)]
    rw [hlen]
    have : init.length + 2 - 1 = init.length + 1 := by omega
    rw [this, List.get?_append_right (by omega)]
    have : init.length + 1 - init.length = 1 := by omega
    rw [this]
    rfl
  have hget2 : pyGetNeg (init ++ [a, b]) 2 = some a := by
    unfold pyGetNeg
    rw [if_pos (by omega)]
    rw [hlen]
    have : init.length + 2 - 2 = init.length := by omega
    rw [this, List.get?_append_right (by omega)]
    have : init.length - init.length = 0 := by omega
    rw [this]
    rfl
  have hdropLast : (init ++ [a, b]).dropLast = init ++ [a] := by
    have : init ++ [a, b] = (init ++ [a]) ++ [b] := by simp
    rw [this, List.dropLast_concat]
  have hdrop : dropTrailingDup (init ++ [a, b]) = some (init ++ [a]) := by
    unfold dropTrailingDup
    rw [hget1, hget2]
    show some (if b.1 = a.1 then (init ++ [a, b]).dropLast else init ++ [a, b]) =
      some (init ++ [a])
    rw [if_pos hdup.symm, hdropLast]
  have hmerge : mergeDivs (init ++ [a]) [] =
      (init ++ [a]).map (fun p => Row.mk p.1 (some p.2) none) := by
    show List.insertionSort (fun x y : Row => x.ts ≤ y.ts)
        ((init ++ [a]).map (fun p => Row.mk p.1 (some p.2) (lookupDiv p.1 [])) ++ []) = _
    rw [List.append_nil]
    have hfun : (fun p : ℤ × ℚ => Row.mk p.1 (some p.2) (lookupDiv p.1 [])) =
        (fun p : ℤ × ℚ => Row.mk p.1 (some p.2) none) := rfl
    rw [hfun]
    exact List.Sorted.insertionSort_eq (List.pairwise_map.mpr hsorted)
  constructor
  · unfold historical_data_table
    rw [hdrop]
    simp only [Option.map_some']
    rw [if_neg (by simp), hmerge]
  · unfold noTrailingDup
    rw [← List.map_reverse, List.reverse_append]
    cases hrev : init.reverse with
    | nil => rfl
    | cons c t =>
      have hlast : init.getLast? = some c := by
        rw [← List.head?_reverse, hrev]
        rfl
      rw [hlast, Option.all_some] at hprev
      have hne : c.1 ≠ a.1 := of_decide_eq_true hprev
      simp only [List.reverse_singleton, List.singleton_append, List.map_cons]
      exact decide_eq_true (fun h : a.1 = c.1 => hne h.symm)

/-- Witness for the amended C6. -/
theorem trailing_dup_amended_witness :
    historical_data_table ([(1, 2)] ++ [(3, 4), (3, 9)]) [] false =
      some (([((1 : ℤ), (2 : ℚ))] ++ [(3, 4)]).map
        (fun p : ℤ × ℚ => Row.mk p.1 (some p.2) none)) ∧
    noTrailingDup (([((1 : ℤ), (2 : ℚ))] ++ [(3, 4)]).map
      (fun p : ℤ × ℚ => Row.mk p.1 (some p.2) none)) = true :=
  trailing_dup_amended [(1, 2)] (3, 4) (3, 9) rfl (by decide) (by decide)

/-! ### Claim C10: the series-length precondition of the duplicate check -/

/-- Claim C10: `historical_data` compares `prices.index[-1]` with
`prices.index[-2]` unconditionally, so a fetched series of fewer than two
bars fails with an out-of-bounds lookup instead of returning a table, while
two or more bars always clear the check — a series of at least two bars is
an undocumented precondition. -/
theorem historical_data_short_series (prices divs : List (ℤ × ℚ)) (weekly : Bool) :
    (prices.length < 2 → historical_data_table prices divs weekly = none) ∧
    (2 ≤ prices.length → (historical_data_table prices divs weekly).isSome = true) := by
  constructor
  · intro h
    have hdrop : dropTrailingDup prices = none := by
      unfold dropTrailingDup pyGetNeg
      rw [if_neg (show ¬ (1 ≤ 2 ∧ 2 ≤ prices.length) by omega)]
      cases hx : (if 1 ≤ 1 ∧ 1 ≤ prices.length then prices.get? (prices.length - 1) else none) with
      | none => rfl
      | some a => rfl
    unfold historical_data_table
    rw [hdrop]
    rfl
  · intro h
    have h1 : prices.length - 1 < prices.length := by omega
    have h2 : prices.length - 2 < prices.length := by omega
    have hdrop : (dropTrailingDup prices).isSome = true := by
      unfold dropTrailingDup pyGetNeg
      rw [if_pos (show 1 ≤ 1 ∧ 1 ≤ prices.length by omega),
        if_pos (show 1 ≤ 2 ∧ 2 ≤ prices.length by omega)]
      rw [List.get?_eq_get h1, List.get?_eq_get h2]
      rfl
    unfold historical_data_table
    cases hx : dropTrailingDup prices with
    | none => rw [hx] at hdrop; exact Bool.noConfusion hdrop
    | some p => rfl

/-- Witness for C10: a single-bar series fails, a two-bar series succeeds. -/
theorem historical_data_short_series_witness :
    historical_data_table [((7 : ℤ), (2 : ℚ))] [] false = none ∧
    (historical_data_table [((7 : ℤ), (2 : ℚ)), (8, 3)] [] false).isSome = true :=
  ⟨(historical_data_short_series [(7, 2)] [] false).1 (by decide),
   (historical_data_short_series [(7, 2), (8, 3)] [] false).2 (by decide)⟩

/-! ### Claim C5: identifier extraction -/

theorem classUD_ne_space {c : Char} (h : classUD c = true) : c ≠ ' ' :=
  fun he => absurd (he ▸ h) (by decide)

theorem classUD_ne_dash {c : Char} (h : classUD c = true) : c ≠ '-' :=
  fun he => absurd (he ▸ h) (by decide)

theorem classAN_ne_space {c : Char} (h : classAN c = true) : c ≠ ' ' :=
  fun he => absurd (he ▸ h) (by decide)

theorem classAN_ne_dash {c : Char} (h : classAN c = true) : c ≠ '-' :=
  fun he => absurd (he ▸ h) (by decide)

theorem isDigit_ne_space {c : Char} (h : c.isDigit = true) : c ≠ ' ' :=
  fun he => absurd (he ▸ h) (by decide)

theorem isDigit_ne_dash {c : Char} (h : c.isDigit = true) : c ≠ '-' :=
  fun he => absurd (he ▸ h) (by decide)

theorem classSep_cases {c : Char} (h : classSep c = true) : c = '-' ∨ c = ' ' := by
  unfold classSep at h
  simpa using h

theorem classSep_false_of_digit {c : Char} (h : c.isDigit = true) : classSep c = false := by
  unfold classSep
  have h1 : (c == '-') = false := beq_eq_false_iff_ne.mpr (isDigit_ne_dash h)
  have h2 : (c == ' ') = false := beq_eq_false_iff_ne.mpr (isDigit_ne_space h)
  rw [h1, h2]
  rfl

theorem pyIsSpace_false_of_classUD {c : Char} (h : classUD c = true) : pyIsSpace c = false := by
  cases hsp : pyIsSpace c
  · rfl
  · exfalso
    have hd : c = ' ' ∨ c = '\t' ∨ c = '\n' ∨ c = '\r' ∨ c = '\x0b' ∨ c = '\x0c' := by
      simpa [pyIsSpace, or_assoc] using hsp
    rcases hd with rfl | rfl | rfl | rfl | rfl | rfl <;> exact absurd h (by decide)

theorem pyIsSpace_false_of_digit {c : Char} (h : c.isDigit = true) : pyIsSpace c = false := by
  cases hsp : pyIsSpace c
  · rfl
  · exfalso
    have hd : c = ' ' ∨ c = '\t' ∨ c = '\n' ∨ c = '\r' ∨ c = '\x0b' ∨ c = '\x0c' := by
      simpa [pyIsSpace, or_assoc] using hsp
    rcases hd with rfl | rfl | rfl | rfl | rfl | rfl <;> exact absurd h (by decide)

theorem pyStrip_eq_self {l : List Char}
    (h1 : ∀ c, l.head? = some c → pyIsSpace c = false)
    (h2 : ∀ c, l.getLast? = some c → pyIsSpace c = false) : pyStrip l = l := by
  unfold pyStrip
  have hhead : l.dropWhile pyIsSpace = l := by
    cases l with
    | nil => rfl
    | cons a t =>
      rw [List.dropWhile_cons, if_neg (by rw [h1 a rfl]; exact Bool.false_ne_true)]
  rw [hhead]
  cases hrev : l.reverse with
  | nil =>
    have hl : l = [] := by simpa using congrArg List.reverse hrev
    rw [hl]
    rfl
  | cons b rb =>
    have hb : l.getLast? = some b := by
      rw [← List.head?_reverse, hrev]
      rfl
    rw [List.dropWhile_cons, if_neg (by rw [h2 b hb]; exact Bool.false_ne_true),
      ← hrev, List.reverse_reverse]

theorem takeClass_eq {p : Char → Bool} {n : ℕ} {l t r : List Char}
    (h : takeClass p n l = some (t, r)) :
    t.length = n ∧ t.all p = true ∧ l = t ++ r := by
  unfold takeClass at h
  by_cases hc : (l.take n).length = n ∧ (l.take n).all p = true
  · rw [if_pos hc] at h
    obtain ⟨h1, h2⟩ := Prod.mk.injEq .. ▸ Option.some.inj h
    subst h1
    subst h2
    exact ⟨hc.1, hc.2, (List.take_append_drop n l).symm⟩
  · rw [if_neg hc] at h
    exact absurd h (by simp)

theorem takeClass_of {p : Char → Bool} {n : ℕ} {t : List Char} (r : List Char)
    (ht : t.length = n) (hall : t.all p = true) : takeClass p n (t ++ r) = some (t, r) := by
  subst ht
  unfold takeClass
  rw [List.take_left, List.drop_left]
  rw [if_pos ⟨rfl, hall⟩]

theorem span_sep {s rest : List Char} (hs : s.all classSep = true)
    (hr : ∀ c, rest.head? = some c → classSep c = false) :
    (s ++ rest).takeWhile classSep = s ∧ (s ++ rest).dropWhile classSep = rest := by
  induction s with
  | nil =>
    simp only [List.nil_append]
    cases rest with
    | nil => exact ⟨rfl, rfl⟩
    | cons c t =>
      have hc := hr c rfl
      constructor
      · rw [List.takeWhile_cons, if_neg (by rw [hc]; exact Bool.false_ne_true)]
      · rw [List.dropWhile_cons, if_neg (by rw [hc]; exact Bool.false_ne_true)]
  | cons a s' ih =>
    have ha : classSep a = true := by
      have := List.all_eq_true.mp hs a (List.mem_cons_self a s')
      exact this
    have hs' : s'.all classSep = true :=
      List.all_eq_true.mpr (fun x hx => List.all_eq_true.mp hs x (List.mem_cons_of_mem a hx))
    obtain ⟨ih1, ih2⟩ := ih hs'
    constructor
    · rw [List.cons_append, List.takeWhile_cons, if_pos ha, ih1]
    · rw [List.cons_append, List.dropWhile_cons, if_pos ha, ih2]

theorem filterPair_keep {l : List Char} (h : ∀ c ∈ l, c ≠ ' ' ∧ c ≠ '-') :
    (l.filter (fun c => c ≠ ' ')).filter (fun c => c ≠ '-') = l := by
  have h1 : l.filter (fun c => c ≠ ' ') = l :=
    List.filter_eq_self.mpr (fun a ha => decide_eq_true (h a ha).1)
  rw [h1]
  exact List.filter_eq_self.mpr (fun a ha => decide_eq_true (h a ha).2)

theorem filterPair_sep {l : List Char} (h : l.all classSep = true) :
    (l.filter (fun c => c ≠ ' ')).filter (fun c => c ≠ '-') = [] := by
  refine List.filter_eq_nil.mpr ?_
  intro a ha
  obtain ⟨hmem, hne⟩ := List.mem_filter.mp ha
  have hsep := List.all_eq_true.mp h a hmem
  rcases classSep_cases hsep with rfl | rfl
  · simp
  · exact absurd (of_decide_eq_true hne) (by simp)

theorem canonCusip_parts {t4 t2 s1 d2 s2 d1 : List Char}
    (h4len : t4.length = 4) (h4all : t4.all classUD = true)
    (h2all : t2.all classAN = true)
    (hs1 : s1.all classSep = true) (hs2 : s2.all classSep = true)
    (hd2all : d2.all Char.isDigit = true)
    (hd1all : d1.all Char.isDigit = true) (hd1len : d1.length = 1) :
    canonCusip (t4 ++ t2 ++ s1 ++ d2 ++ s2 ++ d1) = t4 ++ t2 ++ d2 ++ d1 := by
  obtain ⟨z, rfl⟩ := List.length_eq_one.mp hd1len
  have hzdig : z.isDigit = true := by
    have := List.all_eq_true.mp hd1all z (List.mem_singleton.mpr rfl)
    exact this
  have hstrip : pyStrip (t4 ++ t2 ++ s1 ++ d2 ++ s2 ++ [z]) =
      t4 ++ t2 ++ s1 ++ d2 ++ s2 ++ [z] := by
    refine pyStrip_eq_self ?_ ?_
    · intro c hc
      cases ht4 : t4 with
      | nil => rw [ht4] at h4len; exact absurd h4len (by decide)
      | cons a r4 =>
        rw [ht4] at hc
        simp only [List.cons_append, List.head?_cons, Option.some.injEq] at hc
        have ha : classUD a = true :=
          List.all_eq_true.mp h4all a (by rw [ht4]; exact List.mem_cons_self a r4)
        rw [← hc]
        exact pyIsSpace_false_of_classUD ha
    · intro c hc
      have : (t4 ++ t2 ++ s1 ++ d2 ++ s2 ++ [z]).getLast? = some z := by
        rw [List.getLast?_concat]
      rw [this] at hc
      obtain rfl := Option.some.inj hc
      exact pyIsSpace_false_of_digit hzdig
  unfold canonCusip
  rw [hstrip]
  have dist : ∀ X Y : List Char,
      ((X ++ Y).filter (fun c => c ≠ ' ')).filter (fun c => c ≠ '-') =
        ((X.filter (fun c => c ≠ ' ')).filter (fun c => c ≠ '-')) ++
          ((Y.filter (fun c => c ≠ ' ')).filter (fun c => c ≠ '-')) := by
    intro X Y
    rw [List.filter_append, List.filter_append]
  rw [dist, dist, dist, dist, dist]
  rw [filterPair_keep (fun c hc => ⟨classUD_ne_space (List.all_eq_true.mp h4all c hc),
    classUD_ne_dash (List.all_eq_true.mp h4all c hc)⟩)]
  rw [filterPair_keep (fun c hc => ⟨classAN_ne_space (List.all_eq_true.mp h2all c hc),
    classAN_ne_dash (List.all_eq_true.mp h2all c hc)⟩)]
  rw [filterPair_sep hs1, filterPair_sep hs2]
  rw [filterPair_keep (fun c hc => ⟨isDigit_ne_space (List.all_eq_true.mp hd2all c hc),
    isDigit_ne_dash (List.all_eq_true.mp hd2all c hc)⟩)]
  rw [filterPair_keep (fun c hc => ⟨isDigit_ne_space (List.all_eq_true.mp hd1all c hc),
    isDigit_ne_dash (List.all_eq_true.mp hd1all c hc)⟩)]
  simp [List.append_assoc]

theorem all_takeWhile {p : Char → Bool} (l : List Char) :
    (l.takeWhile p).all p = true :=
  List.all_eq_true.mpr (fun _ hx => List.mem_takeWhile_imp hx)

theorem cusipAt_parts {l m r : List Char} (h : cusipAt l = some (m, r)) :
    ∃ t4 t2 s1 d2 s2 d1 : List Char,
      m = t4 ++ t2 ++ s1 ++ d2 ++ s2 ++ d1 ∧
      t4.length = 4 ∧ t4.all classUD = true ∧
      t2.length = 2 ∧ t2.all classAN = true ∧
      s1.all classSep = true ∧ s2.all classSep = true ∧
      d2.length = 2 ∧ d2.all Char.isDigit = true ∧
      d1.length = 1 ∧ d1.all Char.isDigit = true := by
  unfold cusipAt at h
  cases h4 : takeClass classUD 4 l with
  | none => rw [h4] at h; exact absurd h (by simp)
  | some p4 =>
    rw [h4, Option.some_bind] at h
    cases h2 : takeClass classAN 2 p4.2 with
    | none => rw [h2] at h; exact absurd h (by simp)
    | some p2 =>
      rw [h2, Option.some_bind] at h
      cases hd2 : takeClass (fun c => c.isDigit) 2 (p2.2.dropWhile classSep) with
      | none => rw [hd2] at h; exact absurd h (by simp)
      | some pd2 =>
        rw [hd2, Option.some_bind] at h
        cases hd1 : takeClass (fun c => c.isDigit) 1 (pd2.2.dropWhile classSep) with
        | none => rw [hd1] at h; exact absurd h (by simp)
        | some pd1 =>
          rw [hd1, Option.some_bind] at h
          obtain ⟨q4a, q4b, q4c⟩ := takeClass_eq h4
          obtain ⟨q2a, q2b, q2c⟩ := takeClass_eq h2
          obtain ⟨qd2a, qd2b, qd2c⟩ := takeClass_eq hd2
          obtain ⟨qd1a, qd1b, qd1c⟩ := takeClass_eq hd1
          have hm : m = p4.1 ++ p2.1 ++ p2.2.takeWhile classSep ++ pd2.1 ++
              pd2.2.takeWhile classSep ++ pd1.1 :=
            (congrArg Prod.fst (Option.some.inj h)).symm
          exact ⟨p4.1, p2.1, p2.2.takeWhile classSep, pd2.1, pd2.2.takeWhile classSep, pd1.1,
            hm, q4a, q4b, q2a, q2b, all_takeWhile _, all_takeWhile _, qd2a, qd2b, qd1a, qd1b⟩

theorem cusipAt_canon_len {l m r : List Char} (h : cusipAt l = some (m, r)) :
    (canonCusip m).length = 9 := by
  obtain ⟨t4, t2, s1, d2, s2, d1, hm, h4len, h4all, h2len, h2all, hs1, hs2, hd2len, hd2all,
    hd1len, hd1all⟩ := cusipAt_parts h
  rw [hm, canonCusip_parts h4len h4all h2all hs1 hs2 hd2all hd1all hd1len]
  simp [h4len, h2len, hd2len, hd1len]

theorem cusipScanF_nil (fuel : ℕ) : cusipScanF fuel [] = [] := by
  cases fuel <;> rfl

theorem cusipScanF_canon_len (fuel : ℕ) :
    ∀ doc : List Char, ∀ m ∈ cusipScanF fuel doc, (canonCusip m).length = 9 := by
  induction fuel with
  | zero => intro doc m hm; exact absurd hm (by simp [cusipScanF])
  | succ f ih =>
    intro doc m hm
    cases doc with
    | nil => exact absurd hm (by simp [cusipScanF])
    | cons c cs =>
      cases hat : cusipAt (c :: cs) with
      | some p =>
        obtain ⟨pm, pr⟩ := p
        rw [show cusipScanF (f + 1) (c :: cs) = match cusipAt (c :: cs) with
          | some (m, rest) => m :: cusipScanF f rest
          | none => cusipScanF f cs from rfl, hat] at hm
        rcases List.mem_cons.mp hm with rfl | hm2
        · exact cusipAt_canon_len hat
        · exact ih pr m hm2
      | none =>
        rw [show cusipScanF (f + 1) (c :: cs) = match cusipAt (c :: cs) with
          | some (m, rest) => m :: cusipScanF f rest
          | none => cusipScanF f cs from rfl, hat] at hm
        exact ih cs m hm

theorem maxFold_const {n : ℕ} : ∀ (t : List (List Char)) (m : List Char),
    (∀ x ∈ t, x.length = n) → m.length = n →
    t.foldl (fun acc x =>
      match acc with
      | none => some x
      | some mm => if mm.length < x.length then some x else acc) (some m) = some m := by
  intro t
  induction t with
  | nil => intro m _ _; rfl
  | cons b t' ih =>
    intro m hall hm
    have hb : b.length = n := hall b (List.mem_cons_self b t')
    rw [List.foldl_cons]
    show List.foldl _ (if m.length < b.length then some b else some m) t' = some m
    rw [if_neg (by omega)]
    exact ih m (fun x hx => hall x (List.mem_cons_of_mem _ hx)) hm

theorem pyMaxByLen_const {n : ℕ} (l : List (List Char)) (h : ∀ x ∈ l, x.length = n) :
    pyMaxByLen l = l.head? := by
  cases l with
  | nil => rfl
  | cons a t =>
    unfold pyMaxByLen
    rw [List.foldl_cons]
    show List.foldl _ (some a) t = some a
    exact maxFold_const t a (fun x hx => h x (List.mem_cons_of_mem _ hx))
      (h a (List.mem_cons_self a t))

theorem takeClass_exact {p : Char → Bool} {n : ℕ} {l : List Char}
    (hl : l.length = n) (hall : l.all p = true) : takeClass p n l = some (l, []) := by
  have h := takeClass_of ([] : List Char) hl hall
  rwa [List.append_nil] at h

theorem cusipAt_roundtrip {t4 t2 s1 d2 s2 d1 : List Char}
    (h4len : t4.length = 4) (h4all : t4.all classUD = true)
    (h2len : t2.length = 2) (h2all : t2.all classAN = true)
    (hs1 : s1.all classSep = true) (hs2 : s2.all classSep = true)
    (hd2len : d2.length = 2) (hd2all : d2.all Char.isDigit = true)
    (hd1len : d1.length = 1) (hd1all : d1.all Char.isDigit = true) :
    cusipAt (t4 ++ t2 ++ s1 ++ d2 ++ s2 ++ d1) =
      some (t4 ++ t2 ++ s1 ++ d2 ++ s2 ++ d1, []) := by
  obtain ⟨x, y, rfl⟩ := List.length_eq_two.mp hd2len
  obtain ⟨z, rfl⟩ := List.length_eq_one.mp hd1len
  have hx : x.isDigit = true := List.all_eq_true.mp hd2all x (by simp)
  have hz : z.isDigit = true := List.all_eq_true.mp hd1all z (by simp)
  have hspan1 := @span_sep s1 ([x, y] ++ (s2 ++ [z])) hs1 (fun c hc => by
    simp only [List.cons_append, List.head?_cons, Option.some.injEq] at hc
    rw [← hc]
    exact classSep_false_of_digit hx)
  have hspan2 := @span_sep s2 [z] hs2 (fun c hc => by
    simp only [List.head?_cons, Option.some.injEq] at hc
    rw [← hc]
    exact classSep_false_of_digit hz)
  have hshape : t4 ++ t2 ++ s1 ++ [x, y] ++ s2 ++ [z] =
      t4 ++ (t2 ++ (s1 ++ ([x, y] ++ (s2 ++ [z])))) := by simp [List.append_assoc]
  rw [hshape]
  unfold cusipAt
  rw [takeClass_of (t2 ++ (s1 ++ ([x, y] ++ (s2 ++ [z])))) h4len h4all]
  simp only [Option.some_bind]
  rw [takeClass_of (s1 ++ ([x, y] ++ (s2 ++ [z]))) h2len h2all]
  simp only [Option.some_bind]
  rw [hspan1.2]
  rw [takeClass_of (s2 ++ [z]) (by rfl) hd2all]
  simp only [Option.some_bind]
  rw [hspan2.2]
  rw [takeClass_exact (by rfl) hd1all]
  simp only [Option.some_bind]
  rw [hspan1.1, hspan2.1]
  simp [List.append_assoc]

theorem rawCusips_single {doc m : List Char} (hne : doc ≠ [])
    (h : cusipAt doc = some (m, [])) : rawCusips doc = [m] := by
  cases doc with
  | nil => exact absurd rfl hne
  | cons c cs =>
    show cusipScanF (cs.length + 1) (c :: cs) = [m]
    rw [show cusipScanF (cs.length + 1) (c :: cs) = match cusipAt (c :: cs) with
      | some (m, rest) => m :: cusipScanF cs.length rest
      | none => cusipScanF cs.length cs from rfl, h]
    show m :: cusipScanF cs.length [] = [m]
    rw [cusipScanF_nil]

theorem pyMaxByLen_single (x : List Char) : pyMaxByLen [x] = some x := rfl

/-- Counterexample to claim C5 as stated: the document holds two candidate
matches; the second is the longest by character count (11 characters, with
separators), yet the extraction returns the canonical form of the first,
because `max(..., key=len)` runs after canonicalisation, where every
candidate has exactly 9 characters and the first maximum wins. -/
theorem cusip_longest_cex :
    rawCusips C5CEX = ["AAAA11223".toList, "BBBB44-55-6".toList] ∧
    ("AAAA11223".toList).length < ("BBBB44-55-6".toList).length ∧
    parse_cusip C5CEX = some (canonCusip ("AAAA11223".toList)) ∧
    canonCusip ("AAAA11223".toList) ≠ canonCusip ("BBBB44-55-6".toList) := by
  refine ⟨by decide, by decide, by decide, by decide⟩

/-- Claim C5 (amended): the extraction canonicalises every candidate before
comparing lengths; every canonical candidate has exactly 9 characters, so
the maximum-by-length selection returns the first candidate's canonical
form.  The round-trip part holds as stated: a valid identifier embedded
with internal separator runs at the two permitted positions is returned
with all separators removed. -/
theorem cusip_extraction_amended :
    (∀ doc : List Char,
      parse_cusip doc = ((rawCusips doc).head?).map canonCusip ∧
      ∀ m ∈ rawCusips doc, (canonCusip m).length = 9) ∧
    (∀ t4 t2 s1 d2 s2 d1 : List Char,
      t4.length = 4 → t4.all classUD = true →
      t2.length = 2 → t2.all classAN = true →
      s1.all classSep = true → s2.all classSep = true →
      d2.length = 2 → d2.all Char.isDigit = true →
      d1.length = 1 → d1.all Char.isDigit = true →
      parse_cusip (t4 ++ t2 ++ s1 ++ d2 ++ s2 ++ d1) = some (t4 ++ t2 ++ d2 ++ d1)) := by
  constructor
  · intro doc
    have hlens : ∀ m ∈ rawCusips doc, (canonCusip m).length = 9 :=
      cusipScanF_canon_len doc.length doc
    constructor
    · have hmap : ∀ x ∈ (rawCusips doc).map canonCusip, x.length = 9 := by
        intro x hx
        obtain ⟨m, hm, rfl⟩ := List.mem_map.mp hx
        exact hlens m hm
      unfold parse_cusip
      rw [pyMaxByLen_const _ hmap, List.head?_map]
    · exact hlens
  · intro t4 t2 s1 d2 s2 d1 h4len h4all h2len h2all hs1 hs2 hd2len hd2all hd1len hd1all
    have hAt := cusipAt_roundtrip h4len h4all h2len h2all hs1 hs2 hd2len hd2all hd1len hd1all
    have hne : t4 ++ t2 ++ s1 ++ d2 ++ s2 ++ d1 ≠ [] := by
      intro he
      have hlen := congrArg List.length he
      simp [h4len] at hlen
    unfold parse_cusip
    rw [rawCusips_single hne hAt]
    rw [show (([t4 ++ t2 ++ s1 ++ d2 ++ s2 ++ d1]).map canonCusip) =
      [canonCusip (t4 ++ t2 ++ s1 ++ d2 ++ s2 ++ d1)] from rfl, pyMaxByLen_single]
    rw [canonCusip_parts h4len h4all h2all hs1 hs2 hd2all hd1all hd1len]

/-- Witness for the amended C5: the first-canonical-candidate selection at
the two-candidate document and the round-trip at a separator-laden
identifier. -/
theorem cusip_extraction_amended_witness :
    parse_cusip C5CEX = ((rawCusips C5CEX).head?).map canonCusip ∧
    parse_cusip ("ABCD".toList ++ "12".toList ++ "- ".toList ++ "34".toList ++
        "-".toList ++ "5".toList) =
      some ("ABCD".toList ++ "12".toList ++ "34".toList ++ "5".toList) :=
  ⟨(cusip_extraction_amended.1 C5CEX).1,
   cusip_extraction_amended.2 "ABCD".toList "12".toList "- ".toList "34".toList
     "-".toList "5".toList (by decide) (by decide) (by decide) (by decide) (by decide)
     (by decide) (by decide) (by decide) (by decide) (by decide)⟩

/-! ### Claim C7: percent-of-class normalisation -/

theorem span_all {p : Char → Bool} {s rest : List Char} (hs : s.all p = true)
    (hr : ∀ c, rest.head? = some c → p c = false) :
    (s ++ rest).takeWhile p = s ∧ (s ++ rest).dropWhile p = rest := by
  induction s with
  | nil =>
    simp only [List.nil_append]
    cases rest with
    | nil => exact ⟨rfl, rfl⟩
    | cons c t =>
      have hc := hr c rfl
      constructor
      · rw [List.takeWhile_cons, if_neg (by rw [hc]; exact Bool.false_ne_true)]
      · rw [List.dropWhile_cons, if_neg (by rw [hc]; exact Bool.false_ne_true)]
  | cons a s' ih =>
    have ha : p a = true := List.all_eq_true.mp hs a (List.mem_cons_self a s')
    have hs' : s'.all p = true :=
      List.all_eq_true.mpr (fun x hx => List.all_eq_true.mp hs x (List.mem_cons_of_mem a hx))
    obtain ⟨ih1, ih2⟩ := ih hs'
    constructor
    · rw [List.cons_append, List.takeWhile_cons, if_pos ha, ih1]
    · rw [List.cons_append, List.dropWhile_cons, if_pos ha, ih2]

theorem numClass_not_space {c : Char} (h : numClass c = true) : pyIsSpace c = false := by
  cases hsp : pyIsSpace c
  · rfl
  · exfalso
    have hd : c = ' ' ∨ c = '\t' ∨ c = '\n' ∨ c = '\r' ∨ c = '\x0b' ∨ c = '\x0c' := by
      simpa [pyIsSpace, or_assoc] using hsp
    rcases hd with rfl | rfl | rfl | rfl | rfl | rfl <;> exact absurd h (by decide)

theorem pctNumAt_token {tok rest : List Char} (hne : tok ≠ [])
    (hcls : tok.all numClass = true) : pctNumAt (tok ++ '%' :: rest) = some tok := by
  cases tok with
  | nil => exact absurd rfl hne
  | cons c0 tk =>
    have hc0 : numClass c0 = true := List.all_eq_true.mp hcls c0 (List.mem_cons_self c0 tk)
    have hspan := @span_all numClass (c0 :: tk) ('%' :: rest) hcls (fun c hc => by
      simp only [List.head?_cons, Option.some.injEq] at hc
      rw [← hc]
      decide)
    have hdw : List.dropWhile pyIsSpace ((c0 :: tk) ++ '%' :: rest) =
        (c0 :: tk) ++ '%' :: rest := by
      rw [List.cons_append, List.dropWhile_cons,
        if_neg (by rw [numClass_not_space hc0]; exact Bool.false_ne_true), ← List.cons_append]
    unfold pctNumAt
    rw [hdw, hspan.1, hspan.2, if_neg (by simp)]
    simp

theorem pctNumAt_space (l : List Char) : pctNumAt (' ' :: l) = pctNumAt l := by
  unfold pctNumAt
  rw [show List.dropWhile pyIsSpace (' ' :: l) = List.dropWhile pyIsSpace l from by
    rw [List.dropWhile_cons, if_pos (by decide)]]

theorem pctLazy_phrase {tok rest : List Char} (hne : tok ≠ [])
    (hcls : tok.all numClass = true) :
    pctLazy (" (11): ".toList ++ (tok ++ '%' :: rest)) = some tok := by
  show (match pctNumAt (' ' :: (tok ++ '%' :: rest)) with
    | some cap => some cap
    | none => if ' ' ≠ '\n' then pctLazy (tok ++ '%' :: rest) else none) = some tok
  rw [pctNumAt_space, pctNumAt_token hne hcls]

theorem pctTail_phrase {tok rest : List Char} (hne : tok ≠ [])
    (hcls : tok.all numClass = true) :
    pctTail (" OF CLASS REPRESENTED BY AMOUNT IN ROW (11): ".toList ++
      (tok ++ '%' :: rest)) = some tok := by
  show pctLazy (" (11): ".toList ++ (tok ++ '%' :: rest)) = some tok
  exact pctLazy_phrase hne hcls

theorem pctAt_phrase {tok rest : List Char} (hne : tok ≠ [])
    (hcls : tok.all numClass = true) :
    pctAt (PCT_PHRASE ++ (tok ++ '%' :: rest)) = some tok := by
  show pctTail (" OF CLASS REPRESENTED BY AMOUNT IN ROW (11): ".toList ++
    (tok ++ '%' :: rest)) = some tok
  exact pctTail_phrase hne hcls

theorem scanFirst_head {α : Type} {m : List Char → Option α} {l : List Char} {a : α}
    (hne : l ≠ []) (h : m l = some a) : scanFirst m l = some a := by
  cases l with
  | nil => exact absurd rfl hne
  | cons c cs =>
    show (match m (c :: cs) with | some x => some x | none => scanFirst m cs) = some a
    rw [h]

/-- Claim C7: for a flattened document consisting of the percent-of-class
boilerplate phrase followed by a numeric percentage token and the percent
sign, `percent_acquired` returns the token's value divided by 100 and
rounded to 8 decimal places. -/
theorem percent_normalization (tok rest : List Char) (v : ℚ)
    (hcls : tok.all numClass = true) (hne : tok ≠ []) (hv : pyFloat tok = some v) :
    parse_percent_acquired (PCT_PHRASE ++ tok ++ '%' :: rest) = some (round8 (v / 100)) := by
  have hAt : pctAt (PCT_PHRASE ++ (tok ++ '%' :: rest)) = some tok := pctAt_phrase hne hcls
  have hnedoc : PCT_PHRASE ++ tok ++ '%' :: rest ≠ [] := List.cons_ne_nil _ _
  unfold parse_percent_acquired pctCapture
  rw [scanFirst_head hnedoc hAt, Option.some_bind, hv]
  rfl

/-- Witness for C7: the token `37.5` yields exactly `0.375`. -/
theorem percent_normalization_witness :
    parse_percent_acquired (PCT_PHRASE ++ "37.5".toList ++ '%' :: []) =
      some (round8 ((75 / 2 : ℚ) / 100)) ∧
    round8 ((75 / 2 : ℚ) / 100) = 3 / 8 := by
  have hfloat : pyFloat "37.5".toList = some ((75 : ℚ) / 2) := by
    have h0 : pyFloat "37.5".toList =
        some (((37 : ℕ) : ℚ) + ((5 : ℕ) : ℚ) / (10 : ℚ) ^ (1 : ℕ)) := rfl
    rw [h0]
    norm_num
  have hround : round8 ((75 / 2 : ℚ) / 100) = 3 / 8 := by
    have h1 : ((75 / 2 : ℚ) / 100 * 100000000) = ((37500000 : ℤ) : ℚ) := by norm_num
    unfold round8 roundHalfEven
    rw [h1, Int.floor_intCast]
    rw [if_pos (by norm_num)]
    norm_num
  exact ⟨percent_normalization "37.5".toList [] (75 / 2) (by decide) (by decide) hfloat,
    hround⟩
